import Mathlib

/-!
Shallow embedding of `src/parsort.c` (ParSort), a process-parallel merge sort
over an array of signed 64-bit integers shared between the worker processes
through a memory-mapped file.

The array is modelled as a `List Int`; machine `int64_t` values are `Int`
(no arithmetic is performed on elements, only comparisons, so no wrap-around
is reachable) and `size_t` indices are `Nat`.  In-place mutation of the span
`[begin, end)` becomes a function returning the updated list.  The child
processes created by `fork` write disjoint spans of the shared mapping and
the parent waits for both before reading, so the concurrent execution is
observationally equivalent to running the left child to completion and then
the right child; `merge_sort` is embedded with that sequentialisation.
The C function does not terminate for every input (with `threshold = 0` a
span of size 1 forks itself forever), so the embedding is fuel-indexed and
a run that exhausts its fuel returns `SortResult.diverge`; divergence of the
C code on an input corresponds to `diverge` for every fuel value.
-/

namespace ParSort

/-- Embedding of `compare_i64` (parsort.c lines 19-25): returns -1 if
`left < right`, 1 if `left > right`, 0 if they are equal. -/
def compare_i64 (left right : Int) : Int :=
  if left < right then -1 else if left > right then 1 else 0

/-- The contents of the half-open index range `[b, e)` of the array. -/
def seg (arr : List Int) (b e : Nat) : List Int :=
  (arr.drop b).take (e - b)

/-- Overwrite the elements of `arr` starting at index `b` with the list `s`,
leaving everything else unchanged.  This models writing `s.length` elements
to `arr + b`, e.g. the copy-back loop of `merge_sort` (parsort.c lines
151-152). -/
def setSeg (arr : List Int) (b : Nat) (s : List Int) : List Int :=
  arr.take b ++ s ++ arr.drop (b + s.length)

/-- Model of the libc `qsort` call made by `seq_sort` (parsort.c line 34)
with comparator `compare_i64`: `qsort`'s contract is to reorder the buffer
ascending with respect to the comparator.  Because `compare_i64 a b ≤ 0`
holds exactly when `a ≤ b` (lemma `compare_i64_nonpos`), and an ascending
reordering of a multiset of integers is unique, the call is modelled by
insertion sort with respect to `compare_i64`. -/
def qsort_i64 (l : List Int) : List Int :=
  List.insertionSort (fun a b => compare_i64 a b ≤ 0) l

/-- Embedding of `seq_sort` (parsort.c lines 32-35): sorts the
`end - begin` elements starting at `arr + begin` with `qsort`. -/
def seq_sort (arr : List Int) (b e : Nat) : List Int :=
  setSeg arr b (qsort_i64 (seg arr b e))

/-- Embedding of the loop of `merge` (parsort.c lines 45-68) producing the
contents written to `temparr`.  The two arguments are the contents under the
`left` and `right` cursors still to be consumed (`[left, endl)` and
`[right, endr)`); the result is what the loop appends through `dst`.  The
four cases are the loop's four states: both cursors at the end (`break`),
`at_end_l` (drain right), `at_end_r` (drain left), and the comparison case,
where `cmp <= 0` advances the left cursor. -/
def mergeLists : List Int → List Int → List Int
  | [], [] => []
  | [], b :: r => b :: mergeLists [] r
  | a :: l, [] => a :: mergeLists l []
  | a :: l, b :: r =>
    if compare_i64 a b ≤ 0 then a :: mergeLists l (b :: r)
    else b :: mergeLists (a :: l) r
  termination_by l r => l.length + r.length

/-- The merge step of `merge_sort` (parsort.c lines 144-153): merge the
sorted sub-spans `[b, m)` and `[m, e)` into the temporary buffer, then copy
the buffer back over `[b, e)`. -/
def merge_step (arr : List Int) (b m e : Nat) : List Int :=
  setSeg arr b (mergeLists (seg arr b m) (seg arr m e))

/-- Outcome of a (fuel-indexed) run of `merge_sort`. -/
inductive SortResult where
  /-- The call returned; `arr` is the final contents of the shared array. -/
  | ok (arr : List Int) : SortResult
  /-- The `assert(end >= begin)` at parsort.c line 125 failed. -/
  | assertViolation : SortResult
  /-- The fuel ran out: the C code has not returned within that recursion
  depth. -/
  | diverge : SortResult
deriving DecidableEq

/-- Embedding of `merge_sort` (parsort.c lines 124-154), fuel-indexed.
The C parent forks one child per half, waits for both, and merges.  The two
children mutate the disjoint spans `[begin, mid)` and `[mid, end)` of the
shared mapping, and the parent reads neither half before the corresponding
child has exited, so running left child then right child sequentially is
observationally equivalent; errors of a child (which the parent turns into
its own fatal exit) and divergence of a child (which blocks the parent's
`waitpid` forever) propagate to the parent. -/
def merge_sort : Nat → List Int → Nat → Nat → Nat → SortResult
  | 0, _, b, e, _ => if e < b then .assertViolation else .diverge
  | fuel + 1, arr, b, e, t =>
    if e < b then .assertViolation
    else if e - b ≤ t then .ok (seq_sort arr b e)
    else
      match merge_sort fuel arr b (b + (e - b) / 2) t with
      | .ok arr1 =>
        match merge_sort fuel arr1 (b + (e - b) / 2) e t with
        | .ok arr2 => .ok (merge_step arr2 b (b + (e - b) / 2) e)
        | .assertViolation => .assertViolation
        | .diverge => .diverge
      | .assertViolation => .assertViolation
      | .diverge => .diverge

/-- The C call `merge_sort(arr, b, e, t)` terminates (returns normally):
some fuel suffices for the fuel-indexed embedding to return `ok`. -/
def MergeSortTerminates (arr : List Int) (b e t : Nat) : Prop :=
  ∃ fuel arr', merge_sort fuel arr b e t = SortResult.ok arr'

/-- How a child process terminated, as reported by `waitpid`:
a normal exit with an exit code, or termination by a signal. -/
inductive WaitStatus where
  | exited (code : Nat) : WaitStatus
  | signaled (sig : Nat) : WaitStatus
deriving DecidableEq

/-- The `WIFEXITED` predicate on a wait status: true exactly for a normal
exit. -/
def WIFEXITED : WaitStatus → Bool
  | .exited _ => true
  | .signaled _ => false

/-- The `WEXITSTATUS` accessor on a wait status (only meaningful when
`WIFEXITED` holds, and only used under that guard). -/
def WEXITSTATUS : WaitStatus → Nat
  | .exited code => code
  | .signaled _ => 0

/-- Embedding of `wait_for_sort_process` (parsort.c lines 87-95): the input
is the outcome of `waitpid` (`none` for a `waitpid` failure, `some st` for a
collected termination status), and the result is whether the function
invokes `fatal`.  The code calls `fatal` when `waitpid` fails, and when
`WIFEXITED(status) && WEXITSTATUS(status) != 0`. -/
def wait_invokes_fatal (res : Option WaitStatus) : Bool :=
  match res with
  | none => true
  | some st => WIFEXITED st && WEXITSTATUS st != 0

/-- Modelled from the spec (for comparison with the code's behaviour, not
taken from the source): "abnormal child termination" is a nonzero exit
status or termination by a signal, i.e. anything that is not a normal exit
with status zero. -/
def spec_abnormal : WaitStatus → Bool
  | .exited code => code != 0
  | .signaled _ => true

/-- The split path of `merge_sort` (parsort.c lines 133-153), the branch
taken when `size > threshold`: run the two child sorts on `[b, mid)` and
`[mid, e)` with `mid = b + size / 2`, then merge and copy back. -/
def split_step (fuel : Nat) (arr : List Int) (b e t : Nat) : SortResult :=
  match merge_sort fuel arr b (b + (e - b) / 2) t with
  | .ok arr1 =>
    match merge_sort fuel arr1 (b + (e - b) / 2) e t with
    | .ok arr2 => .ok (merge_step arr2 b (b + (e - b) / 2) e)
    | .assertViolation => .assertViolation
    | .diverge => .diverge
  | .assertViolation => .assertViolation
  | .diverge => .diverge

/-- Adjacent elements of `arr` inside the index range `[b, e)` are in
ascending order: `arr[i] <= arr[i+1]` for all `i` in `[b, e-1)`. -/
def AdjSorted (arr : List Int) (b e : Nat) : Prop :=
  ∀ i x y, b ≤ i → i + 1 < e → arr[i]? = some x → arr[i + 1]? = some y → x ≤ y

/-- Every element at an index outside `[b, e)` is unchanged between `arr`
and `arr'`. -/
def FrameOutside (arr arr' : List Int) (b e : Nat) : Prop :=
  ∀ i, i < b ∨ e ≤ i → arr'[i]? = arr[i]?

/-- No index belongs to both `[b, m)` and `[m, e)`. -/
def SpansDisjoint (b m e : Nat) : Prop :=
  ∀ i, b ≤ i ∧ i < m → ¬(m ≤ i ∧ i < e)

/-! ### Basic properties of the comparator and of `qsort_i64` -/

theorem compare_i64_nonpos (a b : Int) : compare_i64 a b ≤ 0 ↔ a ≤ b := by
  unfold compare_i64
  split
  · constructor <;> intro <;> omega
  · split
    · constructor <;> intro <;> omega
    · constructor <;> intro <;> omega

theorem orderedInsert_compare (a : Int) (l : List Int) :
    List.orderedInsert (fun a b => compare_i64 a b ≤ 0) a l
      = List.orderedInsert (· ≤ ·) a l := by
  induction l with
  | nil => rfl
  | cons b l ih =>
    simp only [List.orderedInsert]
    by_cases h : a ≤ b
    · rw [if_pos ((compare_i64_nonpos a b).mpr h), if_pos h]
    · rw [if_neg (fun hc => h ((compare_i64_nonpos a b).mp hc)), if_neg h, ih]

theorem qsort_i64_eq (l : List Int) :
    qsort_i64 l = List.insertionSort (· ≤ ·) l := by
  unfold qsort_i64
  induction l with
  | nil => rfl
  | cons a l ih => simp only [List.insertionSort]; rw [ih, orderedInsert_compare]

theorem insertionSort_perm_congr {l₁ l₂ : List Int} (h : l₁.Perm l₂) :
    List.insertionSort (· ≤ ·) l₁ = List.insertionSort (· ≤ ·) l₂ :=
  List.eq_of_perm_of_sorted
    ((List.perm_insertionSort _ l₁).trans (h.trans (List.perm_insertionSort _ l₂).symm))
    (List.sorted_insertionSort _ l₁) (List.sorted_insertionSort _ l₂)

/-! ### Properties of segment reading and writing -/

theorem seg_decompose (P X S : List Int) :
    seg (P ++ X ++ S) P.length (P.length + X.length) = X := by
  unfold seg
  rw [List.append_assoc, List.drop_left, Nat.add_sub_cancel_left, List.take_left]

theorem setSeg_decompose (P X S Y : List Int) (h : Y.length = X.length) :
    setSeg (P ++ X ++ S) P.length Y = P ++ Y ++ S := by
  unfold setSeg
  rw [h, ← List.length_append P X, List.drop_left, List.append_assoc P X S,
    List.take_left, List.append_assoc]

theorem decompose_eq (arr : List Int) (b e : Nat) (hbe : b ≤ e) :
    arr.take b ++ seg arr b e ++ arr.drop e = arr := by
  have h : arr.take b ++ seg arr b e = arr.take e := by
    unfold seg
    have he : arr.take e = arr.take (b + (e - b)) := by
      have h2 : b + (e - b) = e := by omega
      rw [h2]
    rw [he, List.take_add]
  rw [h, List.take_append_drop]

theorem take_length_of_le {arr : List Int} {b : Nat} (h : b ≤ arr.length) :
    (arr.take b).length = b := by
  rw [List.length_take]
  omega

theorem seg_length {arr : List Int} {b e : Nat} (hbe : b ≤ e) (hel : e ≤ arr.length) :
    (seg arr b e).length = e - b := by
  unfold seg
  rw [List.length_take, List.length_drop]
  omega

theorem seg_append (arr : List Int) {b m e : Nat} (hbm : b ≤ m) (hme : m ≤ e) :
    seg arr b m ++ seg arr m e = seg arr b e := by
  unfold seg
  have hm : arr.drop m = (arr.drop b).drop (m - b) := by
    rw [List.drop_drop]
    have h2 : b + (m - b) = m := by omega
    rw [h2]
  rw [hm, ← List.take_add]
  have h3 : m - b + (e - m) = e - b := by omega
  rw [h3]

/-! ### Properties of `mergeLists` -/

theorem mergeLists_nil_left (r : List Int) : mergeLists [] r = r := by
  induction r with
  | nil => simp [mergeLists]
  | cons b r ih => rw [mergeLists, ih]

theorem mergeLists_nil_right (l : List Int) : mergeLists l [] = l := by
  induction l with
  | nil => simp [mergeLists]
  | cons a l ih => rw [mergeLists, ih]

theorem mergeLists_perm (l r : List Int) : (mergeLists l r).Perm (l ++ r) := by
  induction l, r using mergeLists.induct with
  | case1 => simp [mergeLists]
  | case2 b r ih => simpa [mergeLists] using ih.cons b
  | case3 a l ih => simpa [mergeLists] using ih.cons a
  | case4 a l b r h ih =>
    simp only [mergeLists, if_pos h]
    exact ih.cons a
  | case5 a l b r h ih =>
    simp only [mergeLists, if_neg h]
    exact (ih.cons b).trans List.perm_middle.symm

theorem mergeLists_length (l r : List Int) :
    (mergeLists l r).length = l.length + r.length := by
  have := (mergeLists_perm l r).length_eq
  rwa [List.length_append] at this

theorem mergeLists_sorted : ∀ l r : List Int, l.Sorted (· ≤ ·) →
    r.Sorted (· ≤ ·) → (mergeLists l r).Sorted (· ≤ ·) := by
  intro l r
  induction l, r using mergeLists.induct with
  | case1 => intro _ _; simp [mergeLists]
  | case2 b r ih => intro _ hr; rw [mergeLists_nil_left]; exact hr
  | case3 a l ih => intro hl _; rw [mergeLists_nil_right]; exact hl
  | case4 a l b r h ih =>
    intro hl hr
    have hl' := List.sorted_cons.mp hl
    have hr' := List.sorted_cons.mp hr
    have hab : a ≤ b := (compare_i64_nonpos a b).mp h
    simp only [mergeLists, if_pos h]
    rw [List.sorted_cons]
    refine ⟨fun x hx => ?_, ih hl'.2 hr⟩
    have hx' : x ∈ l ++ b :: r := (mergeLists_perm l (b :: r)).mem_iff.mp hx
    rcases List.mem_append.mp hx' with hxl | hxbr
    · exact hl'.1 x hxl
    · rcases List.mem_cons.mp hxbr with rfl | hxr
      · exact hab
      · exact le_trans hab (hr'.1 x hxr)
  | case5 a l b r h ih =>
    intro hl hr
    have hl' := List.sorted_cons.mp hl
    have hr' := List.sorted_cons.mp hr
    have hba : b ≤ a := le_of_not_le (fun hab => h ((compare_i64_nonpos a b).mpr hab))
    simp only [mergeLists, if_neg h]
    rw [List.sorted_cons]
    refine ⟨fun x hx => ?_, ih hl hr'.2⟩
    have hx' : x ∈ (a :: l) ++ r := (mergeLists_perm (a :: l) r).mem_iff.mp hx
    rcases List.mem_append.mp hx' with hxal | hxr
    · rcases List.mem_cons.mp hxal with rfl | hxl
      · exact hba
      · exact le_trans hba (hl'.1 x hxl)
    · exact hr'.1 x hxr

theorem mergeLists_eq_insertionSort {l r : List Int} (hl : l.Sorted (· ≤ ·))
    (hr : r.Sorted (· ≤ ·)) :
    mergeLists l r = List.insertionSort (· ≤ ·) (l ++ r) :=
  List.eq_of_perm_of_sorted
    ((mergeLists_perm l r).trans (List.perm_insertionSort _ (l ++ r)).symm)
    (mergeLists_sorted l r hl hr) (List.sorted_insertionSort _ (l ++ r))

/-! ### Decomposed forms of the array-mutating operations -/

theorem seq_sort_decompose (P M S : List Int) :
    seq_sort (P ++ M ++ S) P.length (P.length + M.length) = P ++ qsort_i64 M ++ S := by
  unfold seq_sort
  rw [seg_decompose]
  exact setSeg_decompose P M S (qsort_i64 M)
    (by unfold qsort_i64; exact List.length_insertionSort _ M)

theorem merge_step_decompose (P X Y S : List Int) :
    merge_step (P ++ X ++ Y ++ S) P.length (P.length + X.length)
      (P.length + X.length + Y.length) = P ++ mergeLists X Y ++ S := by
  unfold merge_step
  have hshape : P ++ X ++ Y ++ S = P ++ X ++ (Y ++ S) := by
    rw [List.append_assoc (P ++ X) Y S]
  have h1 : seg (P ++ X ++ Y ++ S) P.length (P.length + X.length) = X := by
    rw [hshape]; exact seg_decompose P X (Y ++ S)
  have h2 : seg (P ++ X ++ Y ++ S) (P.length + X.length)
      (P.length + X.length + Y.length) = Y := by
    have h2a := seg_decompose (P ++ X) Y S
    rwa [List.length_append P X] at h2a
  rw [h1, h2]
  have hshape2 : P ++ X ++ Y ++ S = P ++ (X ++ Y) ++ S := by
    rw [List.append_assoc P X Y]
  rw [hshape2]
  have hfin := setSeg_decompose P (X ++ Y) S (mergeLists X Y)
    (by rw [mergeLists_length, List.length_append])
  exact hfin

/-! ### The central characterisation of a completed `merge_sort` run -/

theorem merge_sort_ok_decompose : ∀ (fuel t : Nat) (P M S arr' : List Int),
    merge_sort fuel (P ++ M ++ S) P.length (P.length + M.length) t
      = SortResult.ok arr' →
    arr' = P ++ List.insertionSort (· ≤ ·) M ++ S := by
  intro fuel
  induction fuel with
  | zero =>
    intro t P M S arr' h
    simp only [merge_sort] at h
    split at h <;> simp at h
  | succ fuel ih =>
    intro t P M S arr' h
    simp only [merge_sort] at h
    rw [if_neg (by omega), Nat.add_sub_cancel_left] at h
    by_cases hseq : M.length ≤ t
    · rw [if_pos hseq] at h
      rw [← SortResult.ok.inj h, seq_sort_decompose, qsort_i64_eq]
    · rw [if_neg hseq] at h
      obtain ⟨M1, M2, hM, hM1len, hM2len⟩ :
          ∃ M1 M2, M = M1 ++ M2 ∧ M1.length = M.length / 2 ∧
            M1.length + M2.length = M.length :=
        ⟨M.take (M.length / 2), M.drop (M.length / 2),
          (List.take_append_drop _ M).symm,
          by rw [List.length_take]; omega,
          by rw [List.length_take, List.length_drop]; omega⟩
      have hshape : P ++ M ++ S = P ++ M1 ++ (M2 ++ S) := by
        rw [hM]; simp [List.append_assoc]
      have hmid : P.length + M.length / 2 = P.length + M1.length := by
        rw [hM1len]
      rw [hshape, hmid] at h
      split at h
      case _ arr1 hL =>
        have harr1 : arr1 = P ++ List.insertionSort (· ≤ ·) M1 ++ (M2 ++ S) :=
          ih t P M1 (M2 ++ S) arr1 hL
        have hsM1len : (List.insertionSort (· ≤ ·) M1).length = M1.length :=
          List.length_insertionSort _ M1
        have harr1' : arr1 = (P ++ List.insertionSort (· ≤ ·) M1) ++ M2 ++ S := by
          rw [harr1]; simp [List.append_assoc]
        have hb2 : P.length + M1.length
            = (P ++ List.insertionSort (· ≤ ·) M1).length := by
          rw [List.length_append, hsM1len]
        have he2 : P.length + M.length
            = (P ++ List.insertionSort (· ≤ ·) M1).length + M2.length := by
          rw [List.length_append, hsM1len]; omega
        rw [harr1', hb2, he2] at h
        split at h
        case _ arr2 hR =>
          have harr2 : arr2 = (P ++ List.insertionSort (· ≤ ·) M1)
              ++ List.insertionSort (· ≤ ·) M2 ++ S :=
            ih t (P ++ List.insertionSort (· ≤ ·) M1) M2 S arr2 hR
          have hsM2len : (List.insertionSort (· ≤ ·) M2).length = M2.length :=
            List.length_insertionSort _ M2
          have hmer := merge_step_decompose P (List.insertionSort (· ≤ ·) M1)
            (List.insertionSort (· ≤ ·) M2) S
          rw [hsM1len, hsM2len] at hmer
          rw [hb2] at hmer
          rw [← harr2] at hmer
          rw [hmer] at h
          rw [← SortResult.ok.inj h]
          have hmerge : mergeLists (List.insertionSort (· ≤ ·) M1)
              (List.insertionSort (· ≤ ·) M2) = List.insertionSort (· ≤ ·) M := by
            rw [mergeLists_eq_insertionSort (List.sorted_insertionSort _ M1)
              (List.sorted_insertionSort _ M2)]
            refine insertionSort_perm_congr ?_
            rw [hM]
            exact ((List.perm_insertionSort _ M1).append
              (List.perm_insertionSort _ M2))
          rw [hmerge]
        case _ hR => simp at h
        case _ hR => simp at h
      case _ hL => simp at h
      case _ hL => simp at h

/-- A completed `merge_sort` run leaves the array equal to its prefix before
`b`, the ascending reordering of the old segment `[b, e)`, and its suffix
from `e` on. -/
theorem merge_sort_ok_eq {fuel : Nat} {arr : List Int} {b e t : Nat}
    {arr' : List Int} (hbe : b ≤ e) (hel : e ≤ arr.length)
    (h : merge_sort fuel arr b e t = SortResult.ok arr') :
    arr' = arr.take b ++ List.insertionSort (· ≤ ·) (seg arr b e) ++ arr.drop e := by
  have hb : (arr.take b).length = b := take_length_of_le (le_trans hbe hel)
  have hs : (seg arr b e).length = e - b := seg_length hbe hel
  have hd := decompose_eq arr b e hbe
  have h2 : merge_sort fuel (arr.take b ++ seg arr b e ++ arr.drop e)
      (arr.take b).length ((arr.take b).length + (seg arr b e).length) t
      = SortResult.ok arr' := by
    rw [hd, hb, hs]
    have h3 : b + (e - b) = e := by omega
    rw [h3]
    exact h
  exact merge_sort_ok_decompose fuel t (arr.take b) (seg arr b e) (arr.drop e)
    arr' h2

/-- Reading back the segment `[b, e)` of a result of the decomposed shape. -/
theorem seg_result (arr X : List Int) (b e : Nat) (hbe : b ≤ e)
    (hel : e ≤ arr.length) (hX : X.length = e - b) :
    seg (arr.take b ++ X ++ arr.drop e) b e = X := by
  have hb : (arr.take b).length = b := take_length_of_le (le_trans hbe hel)
  have h := seg_decompose (arr.take b) X (arr.drop e)
  rw [hb, hX] at h
  have h3 : b + (e - b) = e := by omega
  rwa [h3] at h

theorem result_length (arr X : List Int) {b e : Nat} (hbe : b ≤ e)
    (hel : e ≤ arr.length) (hX : X.length = e - b) :
    (arr.take b ++ X ++ arr.drop e).length = arr.length := by
  rw [List.length_append, List.length_append, List.length_take,
    List.length_drop, hX]
  omega

theorem result_getElem_low (arr X : List Int) {b e i : Nat} (hbe : b ≤ e)
    (hel : e ≤ arr.length) (hX : X.length = e - b) (hi : i < b) :
    (arr.take b ++ X ++ arr.drop e)[i]? = arr[i]? := by
  have hb : (arr.take b).length = b := take_length_of_le (le_trans hbe hel)
  rw [List.getElem?_append, if_pos (by rw [List.length_append, hb]; omega),
    List.getElem?_append, if_pos (by rw [hb]; omega), List.getElem?_take,
    if_pos hi]

theorem result_getElem_high (arr X : List Int) {b e i : Nat} (hbe : b ≤ e)
    (hel : e ≤ arr.length) (hX : X.length = e - b) (hi : e ≤ i) :
    (arr.take b ++ X ++ arr.drop e)[i]? = arr[i]? := by
  have hb : (arr.take b).length = b := take_length_of_le (le_trans hbe hel)
  have hlen : (arr.take b ++ X).length = e := by
    rw [List.length_append, hb, hX]; omega
  rw [List.getElem?_append, if_neg (by rw [hlen]; omega), hlen,
    List.getElem?_drop]
  have h3 : e + (i - e) = i := by omega
  rw [h3]

/-! ### Divergence with threshold zero, termination with positive threshold -/

theorem merge_sort_zero_threshold : ∀ (fuel : Nat) (arr : List Int) (b e : Nat),
    b < e → merge_sort fuel arr b e 0 = SortResult.diverge := by
  intro fuel
  induction fuel with
  | zero =>
    intro arr b e h
    simp only [merge_sort]
    rw [if_neg (by omega)]
  | succ fuel ih =>
    intro arr b e h
    simp only [merge_sort]
    rw [if_neg (by omega), if_neg (by omega)]
    by_cases h1 : b < b + (e - b) / 2
    · rw [ih arr b (b + (e - b) / 2) h1]
    · have hm : (e - b) / 2 = 0 := by omega
      rw [hm, Nat.add_zero]
      cases fuel with
      | zero =>
        have hL : merge_sort 0 arr b b 0 = SortResult.diverge := by
          simp only [merge_sort]
          rw [if_neg (by omega)]
        rw [hL]
      | succ f =>
        have hL : merge_sort (f + 1) arr b b 0 = SortResult.ok (seq_sort arr b b) := by
          simp only [merge_sort]
          rw [if_neg (by omega), if_pos (by omega)]
        simp only [hL, ih (seq_sort arr b b) b e h]

theorem merge_sort_pos_threshold_total : ∀ (fuel t : Nat) (arr : List Int)
    (b e : Nat), 1 ≤ t → b ≤ e → e - b < fuel →
    ∃ arr', merge_sort fuel arr b e t = SortResult.ok arr' := by
  intro fuel
  induction fuel with
  | zero => intro t arr b e _ _ h; omega
  | succ fuel ih =>
    intro t arr b e ht hbe hf
    simp only [merge_sort]
    rw [if_neg (by omega)]
    by_cases hseq : e - b ≤ t
    · rw [if_pos hseq]; exact ⟨_, rfl⟩
    · rw [if_neg hseq]
      obtain ⟨a1, h1⟩ := ih t arr b (b + (e - b) / 2) ht (by omega) (by omega)
      obtain ⟨a2, h2⟩ := ih t a1 (b + (e - b) / 2) e ht (by omega) (by omega)
      simp only [h1, h2]
      exact ⟨_, rfl⟩

/-! ### Remaining helper lemmas -/

theorem result_getElem_mid (arr X : List Int) {b e i : Nat} (hbe : b ≤ e)
    (hel : e ≤ arr.length) (hX : X.length = e - b) (h1 : b ≤ i) (h2 : i < e) :
    (arr.take b ++ X ++ arr.drop e)[i]? = X[i - b]? := by
  have hb : (arr.take b).length = b := take_length_of_le (le_trans hbe hel)
  rw [List.getElem?_append, if_pos (by rw [List.length_append, hb]; omega),
    List.getElem?_append, if_neg (by rw [hb]; omega), hb]

theorem sorted_adjacent {X : List Int} (hs : X.Sorted (· ≤ ·)) {j : Nat}
    {x y : Int} (hx : X[j]? = some x) (hy : X[j + 1]? = some y) : x ≤ y := by
  have hj1 : j + 1 < X.length := by
    by_contra hc
    rw [List.getElem?_eq_none (by omega)] at hy
    cases hy
  have hj : j < X.length := by omega
  rw [List.getElem?_eq_getElem hj] at hx
  rw [List.getElem?_eq_getElem hj1] at hy
  have h := List.pairwise_iff_get.mp hs ⟨j, hj⟩ ⟨j + 1, hj1⟩
    (by rw [Fin.mk_lt_mk]; omega)
  rw [List.get_eq_getElem, List.get_eq_getElem] at h
  rw [← Option.some.inj hx, ← Option.some.inj hy]
  exact h

theorem merge_sort_assert_ok : ∀ (fuel : Nat) (arr : List Int) (b e t : Nat),
    b ≤ e → merge_sort fuel arr b e t ≠ SortResult.assertViolation := by
  intro fuel
  induction fuel with
  | zero =>
    intro arr b e t hbe
    simp only [merge_sort]
    rw [if_neg (by omega)]
    simp
  | succ fuel ih =>
    intro arr b e t hbe
    simp only [merge_sort]
    rw [if_neg (by omega)]
    by_cases hseq : e - b ≤ t
    · rw [if_pos hseq]; simp
    · rw [if_neg hseq]
      cases hL : merge_sort fuel arr b (b + (e - b) / 2) t with
      | assertViolation => exact absurd hL (ih arr b _ t (by omega))
      | diverge => simp
      | ok a1 =>
        cases hR : merge_sort fuel a1 (b + (e - b) / 2) e t with
        | assertViolation => exact absurd hR (ih a1 _ e t (by omega))
        | diverge => simp [hR]
        | ok a2 => simp [hR]

theorem seq_sort_empty (arr : List Int) (b : Nat) : seq_sort arr b b = arr := by
  unfold seq_sort seg setSeg qsort_i64
  rw [Nat.sub_self, List.take_zero]
  simp [List.insertionSort, List.take_append_drop]

/-! ### Claim C1 -/

/-- Claim C1: for every in-bounds array segment with `end ≥ begin` and every
non-negative threshold, when `merge_sort(arr, begin, end, threshold)`
returns, the elements at indices `[begin, end)` are in ascending order
(`arr[i] ≤ arr[i+1]` for all `i` in `[begin, end-1)`) and form exactly the
same multiset of values the segment held before the call. -/
theorem claim_C1_sort_correct (fuel : Nat) (arr : List Int) (b e t : Nat)
    (arr' : List Int) (hbe : b ≤ e) (hel : e ≤ arr.length)
    (h : merge_sort fuel arr b e t = SortResult.ok arr') :
    (seg arr' b e).Sorted (· ≤ ·) ∧ AdjSorted arr' b e ∧
      (seg arr' b e).Perm (seg arr b e) := by
  have heq := merge_sort_ok_eq hbe hel h
  have hX : (List.insertionSort (· ≤ ·) (seg arr b e)).length = e - b := by
    rw [List.length_insertionSort, seg_length hbe hel]
  have hseg : seg arr' b e = List.insertionSort (· ≤ ·) (seg arr b e) := by
    rw [heq]; exact seg_result arr _ b e hbe hel hX
  refine ⟨?_, ?_, ?_⟩
  · rw [hseg]; exact List.sorted_insertionSort _ _
  · intro i x y h1 h2 hx hy
    rw [heq] at hx hy
    rw [result_getElem_mid arr _ hbe hel hX h1 (by omega)] at hx
    rw [result_getElem_mid arr _ hbe hel hX (by omega) h2] at hy
    have hi1 : i + 1 - b = (i - b) + 1 := by omega
    rw [hi1] at hy
    exact sorted_adjacent (List.sorted_insertionSort _ _) hx hy
  · rw [hseg]; exact List.perm_insertionSort _ _

/-- Witness for claim C1 at `arr = [3, 1, 2]`, `b = 0`, `e = 3`, `t = 1`. -/
theorem claim_C1_witness :
    (seg [1, 2, 3] 0 3).Sorted (· ≤ ·) ∧ AdjSorted [1, 2, 3] 0 3 ∧
      (seg [1, 2, 3] 0 3).Perm (seg [3, 1, 2] 0 3) :=
  claim_C1_sort_correct 3 [3, 1, 2] 0 3 1 [1, 2, 3] (by omega) (by simp)
    (by simp +decide [merge_sort, seq_sort, qsort_i64, seg, setSeg, merge_step,
      mergeLists, compare_i64])

/-! ### Claim C2 -/

/-- Claim C2: merging two sorted lists yields a sorted permutation of their
concatenation; ties are resolved by taking the left element first
(`left ≤ right` advances the left cursor); when one side is exhausted the
other side is drained; at the array level, with sorted sub-spans `[b, m)`
and `[m, e)` (either possibly empty), the merge step followed by the
copy-back leaves `[b, e)` sorted and holding exactly the multiset of values
it held on entry. -/
theorem claim_C2_merge_correct :
    (∀ l r : List Int, l.Sorted (· ≤ ·) → r.Sorted (· ≤ ·) →
      (mergeLists l r).Sorted (· ≤ ·) ∧ (mergeLists l r).Perm (l ++ r)) ∧
    (∀ (x y : Int) (l r : List Int), x ≤ y →
      mergeLists (x :: l) (y :: r) = x :: mergeLists l (y :: r)) ∧
    (∀ r : List Int, mergeLists [] r = r) ∧
    (∀ l : List Int, mergeLists l [] = l) ∧
    (∀ (arr : List Int) (b m e : Nat), b ≤ m → m ≤ e → e ≤ arr.length →
      (seg arr b m).Sorted (· ≤ ·) → (seg arr m e).Sorted (· ≤ ·) →
      (seg (merge_step arr b m e) b e).Sorted (· ≤ ·) ∧
        (seg (merge_step arr b m e) b e).Perm (seg arr b e)) := by
  refine ⟨fun l r hl hr => ⟨mergeLists_sorted l r hl hr, mergeLists_perm l r⟩,
    fun x y l r hxy => ?_, mergeLists_nil_left, mergeLists_nil_right,
    fun arr b m e hbm hme hel hsl hsr => ?_⟩
  · simp only [mergeLists, if_pos ((compare_i64_nonpos x y).mpr hxy)]
  · have hbe : b ≤ e := le_trans hbm hme
    have hml : (mergeLists (seg arr b m) (seg arr m e)).length = e - b := by
      rw [mergeLists_length, seg_length hbm (le_trans hme hel),
        seg_length hme hel]
      omega
    have hms : merge_step arr b m e
        = arr.take b ++ mergeLists (seg arr b m) (seg arr m e) ++ arr.drop e := by
      unfold merge_step setSeg
      rw [hml]
      have h3 : b + (e - b) = e := by omega
      rw [h3]
    rw [hms, seg_result arr _ b e hbe hel hml]
    refine ⟨mergeLists_sorted _ _ hsl hsr, (mergeLists_perm _ _).trans ?_⟩
    rw [seg_append arr hbm hme]

/-- Witness for claim C2 at the spec's own example, left `[1, 4, 7]` and
right `[2, 2, 9]`, and at the array `[1, 4, 7, 2, 2, 9]` with `b = 0`,
`m = 3`, `e = 6`. -/
theorem claim_C2_witness :
    ((mergeLists [1, 4, 7] [2, 2, 9]).Sorted (· ≤ ·) ∧
      (mergeLists [1, 4, 7] [2, 2, 9]).Perm ([1, 4, 7] ++ [2, 2, 9])) ∧
    ((seg (merge_step [1, 4, 7, 2, 2, 9] 0 3 6) 0 6).Sorted (· ≤ ·) ∧
      (seg (merge_step [1, 4, 7, 2, 2, 9] 0 3 6) 0 6).Perm
        (seg [1, 4, 7, 2, 2, 9] 0 6)) :=
  ⟨claim_C2_merge_correct.1 [1, 4, 7] [2, 2, 9] (by decide) (by decide),
    claim_C2_merge_correct.2.2.2.2 [1, 4, 7, 2, 2, 9] 0 3 6 (by omega)
      (by omega) (by simp) (by decide) (by decide)⟩

/-! ### Claim C3 -/

/-- Claim C3 counterexample: the claim asserts termination for every
non-negative threshold, but with `threshold = 0` the call on the
one-element span `[0, 1)` of the array `[0]` never terminates: the split
point `mid = begin + 1/2 = begin` makes the right child an identical call,
forking forever.  No amount of fuel makes the embedding return. -/
theorem claim_C3_counterexample : ¬ MergeSortTerminates [0] 0 1 0 := by
  rintro ⟨fuel, arr', h⟩
  rw [merge_sort_zero_threshold fuel [0] 0 1 (by omega)] at h
  exact SortResult.noConfusion h

/-- Claim C3 (amended): for every span with `end ≥ begin` and every
threshold that is at least 1, `merge_sort` terminates — the recursive
splitting always reaches spans of size at most the threshold, so the
recursion tree is finite.  (With `threshold = 0`, any span of at least one
element diverges, see the counterexample.) -/
theorem claim_C3_terminates (arr : List Int) (b e t : Nat) (ht : 1 ≤ t)
    (hbe : b ≤ e) : MergeSortTerminates arr b e t := by
  obtain ⟨arr', h⟩ :=
    merge_sort_pos_threshold_total (e - b + 1) t arr b e ht hbe (by omega)
  exact ⟨e - b + 1, arr', h⟩

/-- Witness for claim C3 (amended) at `arr = [2, 1]`, `b = 0`, `e = 2`,
`t = 1`. -/
theorem claim_C3_witness : MergeSortTerminates [2, 1] 0 2 1 :=
  claim_C3_terminates [2, 1] 0 2 1 (by omega) (by omega)

/-! ### Claim C4 -/

/-- Claim C4 counterexample: a child terminated by signal 9 is an abnormal
termination in the spec's sense, yet `wait_for_sort_process` does not
invoke the fatal-error path: `WIFEXITED` is false for a signal death, so
the only fatal test (`WIFEXITED && WEXITSTATUS != 0`) is skipped and the
parent carries on. -/
theorem claim_C4_counterexample :
    spec_abnormal (WaitStatus.signaled 9) = true ∧
      wait_invokes_fatal (some (WaitStatus.signaled 9)) = false :=
  ⟨rfl, rfl⟩

/-- Claim C4 (amended): the wait step invokes the fatal-error path exactly
when `waitpid` itself fails or the child performed a normal exit with a
nonzero status; termination by a signal is not detected as a failure and
does not abort the sort. -/
theorem claim_C4_fatal_iff (res : Option WaitStatus) :
    wait_invokes_fatal res = true ↔
      res = none ∨ ∃ c, res = some (WaitStatus.exited c) ∧ c ≠ 0 := by
  match res with
  | none => simp [wait_invokes_fatal]
  | some (WaitStatus.exited c) =>
    simp [wait_invokes_fatal, WIFEXITED, WEXITSTATUS]
  | some (WaitStatus.signaled s) =>
    simp [wait_invokes_fatal, WIFEXITED, WEXITSTATUS]

/-! ### Claim C5 -/

/-- Claim C5: for a fixed in-bounds segment, the final contents produced by
`merge_sort` are identical for every choice of threshold, and agree with
the purely sequential sort of the segment: the threshold never affects the
result. -/
theorem claim_C5_threshold_independent (fuel₁ fuel₂ : Nat) (arr : List Int)
    (b e t₁ t₂ : Nat) (r₁ r₂ : List Int) (hbe : b ≤ e) (hel : e ≤ arr.length)
    (h₁ : merge_sort fuel₁ arr b e t₁ = SortResult.ok r₁)
    (h₂ : merge_sort fuel₂ arr b e t₂ = SortResult.ok r₂) :
    r₁ = r₂ ∧ r₁ = seq_sort arr b e := by
  have e₁ := merge_sort_ok_eq hbe hel h₁
  have e₂ := merge_sort_ok_eq hbe hel h₂
  have hseq : seq_sort arr b e
      = arr.take b ++ List.insertionSort (· ≤ ·) (seg arr b e) ++ arr.drop e := by
    unfold seq_sort setSeg
    rw [qsort_i64_eq, List.length_insertionSort, seg_length hbe hel]
    have h3 : b + (e - b) = e := by omega
    rw [h3]
  exact ⟨e₁.trans e₂.symm, e₁.trans hseq.symm⟩

/-- Witness for claim C5: `[3, 1, 2]` sorted with threshold 1 (three fuel
levels deep) and with threshold 5 (purely sequential) give the same
array. -/
theorem claim_C5_witness : ([1, 2, 3] : List Int) = [1, 2, 3] ∧
    ([1, 2, 3] : List Int) = seq_sort [3, 1, 2] 0 3 :=
  claim_C5_threshold_independent 3 1 [3, 1, 2] 0 3 1 5 [1, 2, 3] [1, 2, 3]
    (by omega) (by simp)
    (by simp +decide [merge_sort, seq_sort, qsort_i64, seg, setSeg, merge_step,
      mergeLists, compare_i64])
    (by simp +decide [merge_sort, seq_sort, qsort_i64, seg, setSeg, merge_step,
      mergeLists, compare_i64])

/-! ### Claim C6 -/

/-- Claim C6: the sequential path is taken exactly when the span size
`e - b` is at most the threshold: any such span (in particular size exactly
`t`) is sorted directly by the in-process sort and the call returns without
splitting; a span of size greater than `t` (in particular `t + 1`) takes
the split path; and the empty span (`begin = end`) is a no-op. -/
theorem claim_C6_path_selection (fuel : Nat) (arr : List Int) (b e t : Nat) :
    (b ≤ e → e - b ≤ t →
      merge_sort (fuel + 1) arr b e t = SortResult.ok (seq_sort arr b e)) ∧
    (t < e - b → merge_sort (fuel + 1) arr b e t = split_step fuel arr b e t) ∧
    merge_sort (fuel + 1) arr b b t = SortResult.ok arr := by
  refine ⟨fun hbe hseq => ?_, fun hsplit => ?_, ?_⟩
  · simp only [merge_sort]
    rw [if_neg (by omega), if_pos hseq]
  · simp only [merge_sort, split_step]
    rw [if_neg (by omega), if_neg (by omega)]
  · simp only [merge_sort]
    rw [if_neg (by omega), if_pos (by omega), seq_sort_empty]

/-- Witness for claim C6: size 2 with threshold 2 goes sequential, size 3
with threshold 2 splits, and an empty span is a no-op. -/
theorem claim_C6_witness :
    merge_sort 1 [7, 5] 0 2 2 = SortResult.ok (seq_sort [7, 5] 0 2) ∧
    merge_sort 2 [7, 5, 3] 0 3 2 = split_step 1 [7, 5, 3] 0 3 2 ∧
    merge_sort 1 [7, 5] 1 1 0 = SortResult.ok [7, 5] :=
  ⟨(claim_C6_path_selection 0 [7, 5] 0 2 2).1 (by omega) (by omega),
    (claim_C6_path_selection 1 [7, 5, 3] 0 3 2).2.1 (by omega),
    (claim_C6_path_selection 0 [7, 5] 1 1 0).2.2⟩

/-! ### Claim C7 -/

/-- Claim C7: whenever `merge_sort` splits a span `[b, e)` of size greater
than the threshold, the split point `mid = b + size / 2` lies between `b`
and `e`, the left child span `[b, mid)` has `floor(size/2)` elements, the
right child span `[mid, e)` has `size - floor(size/2) = ceil(size/2)`
elements, and the two child spans are disjoint and together cover the
parent span exactly. -/
theorem claim_C7_split_point (arr : List Int) (b e t : Nat) (hsplit : t < e - b)
    (hel : e ≤ arr.length) :
    b ≤ b + (e - b) / 2 ∧ b + (e - b) / 2 ≤ e ∧
    (seg arr b (b + (e - b) / 2)).length = (e - b) / 2 ∧
    (seg arr (b + (e - b) / 2) e).length = (e - b) - (e - b) / 2 ∧
    (e - b) - (e - b) / 2 = (e - b + 1) / 2 ∧
    SpansDisjoint b (b + (e - b) / 2) e ∧
    seg arr b (b + (e - b) / 2) ++ seg arr (b + (e - b) / 2) e
      = seg arr b e := by
  refine ⟨by omega, by omega, ?_, ?_, by omega, fun i hi => by omega,
    seg_append arr (by omega) (by omega)⟩
  · rw [seg_length (by omega) (by omega)]
    omega
  · rw [seg_length (by omega) hel]
    omega

/-- Witness for claim C7 at `arr = [5, 3, 8]`, `b = 0`, `e = 3`, `t = 1`. -/
theorem claim_C7_witness :
    0 ≤ 0 + (3 - 0) / 2 ∧ 0 + (3 - 0) / 2 ≤ 3 ∧
    (seg [5, 3, 8] 0 (0 + (3 - 0) / 2)).length = (3 - 0) / 2 ∧
    (seg [5, 3, 8] (0 + (3 - 0) / 2) 3).length = (3 - 0) - (3 - 0) / 2 ∧
    (3 - 0) - (3 - 0) / 2 = (3 - 0 + 1) / 2 ∧
    SpansDisjoint 0 (0 + (3 - 0) / 2) 3 ∧
    seg [5, 3, 8] 0 (0 + (3 - 0) / 2) ++ seg [5, 3, 8] (0 + (3 - 0) / 2) 3
      = seg [5, 3, 8] 0 3 :=
  claim_C7_split_point [5, 3, 8] 0 3 1 (by omega) (by simp)

/-! ### Claim C8 -/

/-- Claim C8: sorting is idempotent — when the elements at `[b, e)` are
already in ascending order, `merge_sort` with any threshold leaves the
array exactly as it was, element by element. -/
theorem claim_C8_idempotent (fuel : Nat) (arr : List Int) (b e t : Nat)
    (arr' : List Int) (hbe : b ≤ e) (hel : e ≤ arr.length)
    (hs : (seg arr b e).Sorted (· ≤ ·))
    (h : merge_sort fuel arr b e t = SortResult.ok arr') : arr' = arr := by
  rw [merge_sort_ok_eq hbe hel h, hs.insertionSort_eq, decompose_eq arr b e hbe]

/-- Witness for claim C8 at the already-sorted `arr = [1, 2, 3]` with
threshold 1. -/
theorem claim_C8_witness : ([1, 2, 3] : List Int) = [1, 2, 3] :=
  claim_C8_idempotent 3 [1, 2, 3] 0 3 1 [1, 2, 3] (by omega) (by simp)
    (by decide)
    (by simp +decide [merge_sort, seq_sort, qsort_i64, seg, setSeg, merge_step,
      mergeLists, compare_i64])

/-! ### Claim C9 -/

/-- Claim C9: a call with `end < begin` fails the `assert(end >= begin)` at
entry, diagnosably, rather than silently producing wrong output; and under
the precondition `end ≥ begin` the assertion always holds — no call in the
whole recursion tree ever reaches the failure branch. -/
theorem claim_C9_assert_check (fuel : Nat) (arr : List Int) (b e t : Nat) :
    (e < b → merge_sort fuel arr b e t = SortResult.assertViolation) ∧
    (b ≤ e → merge_sort fuel arr b e t ≠ SortResult.assertViolation) := by
  constructor
  · intro h
    cases fuel with
    | zero => simp only [merge_sort]; rw [if_pos h]
    | succ f => simp only [merge_sort]; rw [if_pos h]
  · exact merge_sort_assert_ok fuel arr b e t

/-- Witness for claim C9 at `b = 1`, `e = 0` (violated) and `b = 0`,
`e = 1` (satisfied). -/
theorem claim_C9_witness :
    merge_sort 1 [5] 1 0 3 = SortResult.assertViolation ∧
      merge_sort 1 [5] 0 1 3 ≠ SortResult.assertViolation :=
  ⟨(claim_C9_assert_check 1 [5] 1 0 3).1 (by omega),
    (claim_C9_assert_check 1 [5] 0 1 3).2 (by omega)⟩

/-! ### Claim C10 -/

/-- Claim C10: `merge_sort` only touches its own span — when it returns,
the array has the same length and every element at an index outside
`[b, e)` holds exactly the value it held before the call. -/
theorem claim_C10_frame (fuel : Nat) (arr : List Int) (b e t : Nat)
    (arr' : List Int) (hbe : b ≤ e) (hel : e ≤ arr.length)
    (h : merge_sort fuel arr b e t = SortResult.ok arr') :
    arr'.length = arr.length ∧ FrameOutside arr arr' b e := by
  have heq := merge_sort_ok_eq hbe hel h
  have hX : (List.insertionSort (· ≤ ·) (seg arr b e)).length = e - b := by
    rw [List.length_insertionSort, seg_length hbe hel]
  rw [heq]
  refine ⟨result_length arr _ hbe hel hX, fun i hi => ?_⟩
  rcases hi with hi | hi
  · exact result_getElem_low arr _ hbe hel hX hi
  · exact result_getElem_high arr _ hbe hel hX hi

/-- Witness for claim C10 at `arr = [9, 3, 1, 5]`, `b = 1`, `e = 3`,
`t = 1`: the sort of the middle span leaves indices 0 and 3 untouched. -/
theorem claim_C10_witness :
    ([9, 1, 3, 5] : List Int).length = ([9, 3, 1, 5] : List Int).length ∧
      FrameOutside [9, 3, 1, 5] [9, 1, 3, 5] 1 3 :=
  claim_C10_frame 2 [9, 3, 1, 5] 1 3 1 [9, 1, 3, 5] (by omega) (by simp)
    (by simp +decide [merge_sort, seq_sort, qsort_i64, seg, setSeg, merge_step,
      mergeLists, compare_i64])

end ParSort
